import Mathlib

/-!
Shallow embedding of the directory-listing utility in `src/main.rs` of
`better-ls-rust`, together with theorems settling the specification claims.

Modelling conventions:
* An `OsString` (a possibly non-UTF-8 file name) is modelled by the three
  observations the program makes of it: its raw byte sequence (used by the
  `Ord` instance, i.e. `a.file_name().cmp(&b.file_name())`), the result of
  `into_string()` (`some s` exactly when the bytes are valid UTF-8), and the
  result of `to_string_lossy()` (invalid sequences replaced by U+FFFD).
* `fs::metadata` / `fs::read_dir` / `meta.modified()` results are modelled as
  `Option`: `none` is the `Err` case.
* The iterator of `read_dir` yields `Result<DirEntry>` items; every mode in the
  program skips `Err` items (`if let Ok(file)` / `filter_map(Result::ok)`), so
  the model's child list contains exactly the successfully yielded entries.
* Printing to stdout is modelled by returning the data handed to the
  renderer (structured rows / tree lines), which the spec treats as an
  external collaborator.
-/

namespace BetterLs

/-- Model of `std::ffi::OsString` via the observations the program makes:
`bytes` backs the `Ord` comparison used in tree mode, `intoStringResult`
models `OsString::into_string` (`some` iff valid UTF-8) and `lossy` models
`OsString::to_string_lossy`. -/
structure OsString where
  bytes : List Nat
  intoStringResult : Option String
  lossy : String
deriving DecidableEq

/-- Model of `std::fs::Metadata` restricted to the fields the program reads:
`is_dir()`, `len()`, `uid()`, `permissions().mode()` and `modified()`
(`none` models the `Err` case of `modified()`; the instant is seconds since
the Unix epoch). -/
structure Metadata where
  isDir : Bool
  len : Nat
  uid : Nat
  mode : Nat
  modified : Option Nat
deriving DecidableEq

/-- One child of a directory, combining the observations the program can make
of it: its `file_name()`, the result of `fs::metadata(&file.path())`
(`none` = `Err`), the result of `entry.path().is_dir()` (a separate stat,
`false` on error), and the result of `fs::read_dir(&entry.path())` used when
tree mode recurses into it (`none` = `Err`; irrelevant for non-directories). -/
inductive FsEntry : Type where
  | mk (fileName : OsString) (metaResult : Option Metadata)
       (pathIsDir : Bool) (children : Option (List FsEntry)) : FsEntry

/-- The `file_name()` of the entry. -/
def FsEntry.fileName : FsEntry → OsString
  | .mk n _ _ _ => n

/-- The `fs::metadata(&file.path())` result for the entry. -/
def FsEntry.metaResult : FsEntry → Option Metadata
  | .mk _ m _ _ => m

/-- The `entry.path().is_dir()` result for the entry. -/
def FsEntry.pathIsDir : FsEntry → Bool
  | .mk _ _ d _ => d

/-- The `fs::read_dir(&entry.path())` result for the entry. -/
def FsEntry.children : FsEntry → Option (List FsEntry)
  | .mk _ _ _ c => c

/-- The `EntryType` enum of `main.rs` (variants `File` and `Dir`). -/
inductive EntryType where
  | File
  | Dir
deriving DecidableEq

/-- The `FileEntryShort` row struct of `main.rs` (compact mode). -/
structure FileEntryShort where
  name : String
  eType : EntryType
  lenBytes : Nat
  modified : String
deriving DecidableEq

/-- The `FileEntryLong` row struct of `main.rs` (detailed and structured
modes). -/
structure FileEntryLong where
  permissions : String
  owner : String
  name : String
  eType : EntryType
  lenBytes : Nat
  modified : String
deriving DecidableEq

/-- The `Cli` configuration struct of `main.rs` (flags only; the path is
passed separately in the model). -/
structure Cli where
  json : Bool
  all : Bool
  long : Bool
  tree : Bool
deriving DecidableEq

/-- Models `s.starts_with('.')` (and the equivalent `s.starts_with(".")`):
true iff the first character of the string is the hidden-marker dot. -/
def startsWithDot (s : String) : Bool :=
  match s.data with
  | [] => false
  | c :: _ => c == '.'

/-- Weekday abbreviations used by chrono's `%a` (epoch day 0 was a Thursday). -/
def dayNames : List String := ["Sun", "Mon", "Tue", "Wed", "Thu", "Fri", "Sat"]

/-- Month abbreviations used by chrono's `%b`. -/
def monthNames : List String :=
  ["Jan", "Feb", "Mar", "Apr", "May", "Jun",
   "Jul", "Aug", "Sep", "Oct", "Nov", "Dec"]

/-- Civil date (year, month, day) from a count of days since 1970-01-01,
following the standard era-based conversion algorithm used by calendar
libraries such as chrono. -/
def civilFromDays (days : Nat) : Nat × Nat × Nat :=
  let z := days + 719468
  let era := z / 146097
  let doe := z % 146097
  let yoe := (doe - doe / 1460 + doe / 36524 - doe / 146096) / 365
  let y := yoe + era * 400
  let doy := doe - (365 * yoe + yoe / 4 - yoe / 100)
  let mp := (5 * doy + 2) / 153
  let d := doy - (153 * mp + 2) / 5 + 1
  let m := if mp < 10 then mp + 3 else mp - 9
  (if m ≤ 2 then y + 1 else y, m, d)

/-- chrono's `%e`: day of month, space-padded to width two. -/
def padSpaceTwo (d : Nat) : String :=
  if d < 10 then " " ++ Nat.repr d else Nat.repr d

/-- Models `DateTime<Utc>::from(system_time).format("%a %b %e %Y")` applied to
a timestamp of `t` seconds since the Unix epoch. -/
def formatDate (t : Nat) : String :=
  let days := t / 86400
  let dow := (days + 4) % 7
  let ymd := civilFromDays days
  (dayNames.getD dow "") ++ " " ++ (monthNames.getD (ymd.2.1 - 1) "") ++ " " ++
    padSpaceTwo ymd.2.2 ++ " " ++ Nat.repr ymd.1

/-- Models `format!("{:o}", n)`: the octal representation of `n`. -/
def octalString (n : Nat) : String :=
  String.mk (Nat.toDigits 8 n)

/-- Models `map_short_data` (`main.rs` lines 139-164): on metadata success it
produces the row pushed onto the vector, on metadata failure it produces
nothing (the `if let Ok(meta)` has no else branch, so the push is skipped). -/
def mapShortData (e : FsEntry) : Option FileEntryShort :=
  match e.metaResult with
  | none => none
  | some meta =>
    let fileName := e.fileName.intoStringResult.getD "unknown name"
    some
      { name := fileName
        eType := if meta.isDir then EntryType.Dir else EntryType.File
        lenBytes := meta.len
        modified :=
          match meta.modified with
          | some t => formatDate t
          | none => "" }

/-- Models `get_short_files` (`main.rs` lines 123-137): `none` models a failed
`fs::read_dir` (empty result); otherwise each yielded entry is skipped when
`!cli.all` and its lossy name starts with a dot, and is otherwise handed to
`map_short_data`. -/
def getShortFiles (rd : Option (List FsEntry)) (cli : Cli) : List FileEntryShort :=
  match rd with
  | none => []
  | some entries =>
    entries.filterMap fun e =>
      if !cli.all && startsWithDot e.fileName.lossy then none
      else mapShortData e

/-- Models `map_long_data` (`main.rs` lines 211-245). `users` models the
`UsersCache` lookup `get_user_by_uid` (`some` = resolved user name, already
lossy-converted); on lookup failure the numeric uid string is substituted.
On metadata failure nothing is produced (the push is skipped). -/
def mapLongData (users : Nat → Option String) (e : FsEntry) : Option FileEntryLong :=
  match e.metaResult with
  | none => none
  | some meta =>
    let owner := (users meta.uid).getD (Nat.repr meta.uid)
    let fileName := e.fileName.intoStringResult.getD "unknown name"
    some
      { permissions := octalString (meta.mode &&& 0o777)
        owner := owner
        name := fileName
        eType := if meta.isDir then EntryType.Dir else EntryType.File
        lenBytes := meta.len
        modified :=
          match meta.modified with
          | some t => formatDate t
          | none => "" }

/-- Models `get_long_files` (`main.rs` lines 195-209), analogous to
`getShortFiles`. -/
def getLongFiles (rd : Option (List FsEntry)) (users : Nat → Option String)
    (cli : Cli) : List FileEntryLong :=
  match rd with
  | none => []
  | some entries =>
    entries.filterMap fun e =>
      if !cli.all && startsWithDot e.fileName.lossy then none
      else mapLongData users e

/-- Byte-wise lexicographic comparison of two byte sequences: the model of
`OsString`'s `Ord` instance used by `a.file_name().cmp(&b.file_name())`. -/
def listCompare : List Nat → List Nat → Ordering
  | [], [] => Ordering.eq
  | [], _ :: _ => Ordering.lt
  | _ :: _, [] => Ordering.gt
  | x :: xs, y :: ys =>
    if x < y then Ordering.lt
    else if y < x then Ordering.gt
    else listCompare xs ys

/-- The tree-mode sibling comparator (`main.rs` lines 326-335): a directory
sorts before a non-directory; otherwise the `file_name()` byte sequences are
compared lexicographically. -/
def treeCompare (a b : FsEntry) : Ordering :=
  match a.pathIsDir, b.pathIsDir with
  | true, false => Ordering.lt
  | false, true => Ordering.gt
  | _, _ => listCompare a.fileName.bytes b.fileName.bytes

/-- Insert `x` into `l` before the first element `y` with `¬ cmp y x = lt`;
the insertion step of the stable sort below. -/
def insertSorted {α : Type} (cmp : α → α → Ordering) (x : α) : List α → List α
  | [] => [x]
  | y :: ys =>
    if cmp y x = Ordering.lt then y :: insertSorted cmp x ys
    else x :: y :: ys

/-- Models `slice::sort_by` (a stable sort) as stable insertion sort: the
output is the unique sorted permutation preserving the relative order of
elements that compare equal, which is exactly what `sort_by` guarantees. -/
def sortByCompare {α : Type} (cmp : α → α → Ordering) : List α → List α
  | [] => []
  | x :: xs => insertSorted cmp x (sortByCompare cmp xs)

/-- The hidden-entry filter of tree mode (`main.rs` lines 338-344): keep an
entry iff `cli.all` or its lossy name does not start with a dot. -/
def visibleFilter (all : Bool) (l : List FsEntry) : List FsEntry :=
  l.filter fun e => all || !startsWithDot e.fileName.lossy

/-- The hidden entries of a child list: those whose lossy name starts with a
dot. -/
def hiddenOf (l : List FsEntry) : List FsEntry :=
  l.filter fun e => startsWithDot e.fileName.lossy

/-- Characters after the last dot of the list, if any dot occurs. -/
def extAfterLastDot : List Char → Option (List Char)
  | [] => none
  | c :: cs =>
    match extAfterLastDot cs with
    | some e => some e
    | none => if c == '.' then some cs else none

/-- Models `Path::new(&s).extension()` for a single path component `s`: the
portion after the last dot, none when there is no dot or when the only dot is
the leading one, and none for the special components "." and "..". -/
def pathExtension (s : String) : Option String :=
  if s = "." ∨ s = ".." then none
  else
    match s.data with
    | [] => none
    | c :: cs =>
      if c == '.' then (extAfterLastDot cs).map fun l => String.mk l
      else (extAfterLastDot (c :: cs)).map fun l => String.mk l

/-- The color styles tree mode can attach to a name (`main.rs` lines
359-379); the concrete ANSI rendering by `owo_colors` is outside the core. -/
inductive ColorStyle where
  | dirStyle
  | codeStyle
  | docStyle
  | dataStyle
  | imageStyle
  | plainStyle
deriving DecidableEq

/-- The colorization policy of tree mode (`main.rs` lines 359-379): a pure
function of the is-directory flag and the extension of the lossy name. -/
def colorFor (isDir : Bool) (nameStr : String) : ColorStyle :=
  if isDir then ColorStyle.dirStyle
  else
    match (pathExtension nameStr).getD "" with
    | "rs" | "py" | "js" | "ts" | "go" | "cpp" | "c" | "java" => ColorStyle.codeStyle
    | "txt" | "md" | "readme" => ColorStyle.docStyle
    | "json" | "yaml" | "yml" | "toml" | "xml" => ColorStyle.dataStyle
    | "png" | "jpg" | "jpeg" | "gif" | "svg" | "webp" => ColorStyle.imageStyle
    | _ => ColorStyle.plainStyle

/-- One line printed by tree mode: `println!("{}{}{}", prefix, connector,
colored_name)`, kept structured (the indentation string, the connector glyph,
the raw lossy name and its color style), and tagged with the recursion depth
at which it was emitted (0 = direct child of the root). -/
structure TreeLine where
  depth : Nat
  linePfx : String
  connector : String
  name : String
  style : ColorStyle
deriving DecidableEq

theorem sizeOf_insertSorted {α : Type} [SizeOf α] (cmp : α → α → Ordering)
    (x : α) (l : List α) :
    sizeOf (insertSorted cmp x l) = 1 + sizeOf x + sizeOf l := by
  induction l with
  | nil => simp [insertSorted]
  | cons y ys ih =>
    simp only [insertSorted]
    split <;> simp_arith [ih]

theorem sizeOf_sortByCompare {α : Type} [SizeOf α] (cmp : α → α → Ordering)
    (l : List α) : sizeOf (sortByCompare cmp l) = sizeOf l := by
  induction l with
  | nil => rfl
  | cons x xs ih => simp_arith [sortByCompare, sizeOf_insertSorted, ih]

theorem sizeOf_filter_le {α : Type} [SizeOf α] (p : α → Bool) (l : List α) :
    sizeOf (l.filter p) ≤ sizeOf l := by
  induction l with
  | nil => simp
  | cons x xs ih =>
    simp only [List.filter_cons]
    split <;> simp_arith <;> omega

theorem sizeOf_children_lt (e : FsEntry) : sizeOf e.children < sizeOf e := by
  cases e with
  | mk n m d c => simp_arith [FsEntry.children]

mutual

/-- Models `print_tree_recursive` (`main.rs` lines 307-396): returns the
sequence of lines printed for the children of the directory whose `read_dir`
result is `rd` (`none` = `Err`, yielding nothing). Entries are sorted with
the tree comparator, hidden entries are then filtered out, and each visible
entry produces its line followed by the lines of its recursive expansion when
it is a directory. -/
def printTreeRecursive (rd : Option (List FsEntry)) (linePfx : String)
    (all : Bool) (currentDepth maxDepth : Nat) : List TreeLine :=
  if currentDepth ≥ maxDepth then []
  else
    match rd with
    | none => []
    | some entries =>
      renderEntries (visibleFilter all (sortByCompare treeCompare entries))
        linePfx all currentDepth maxDepth
termination_by sizeOf rd
decreasing_by
  simp_wf
  calc sizeOf (visibleFilter all (sortByCompare treeCompare entries))
      ≤ sizeOf (sortByCompare treeCompare entries) := sizeOf_filter_le _ _
    _ = sizeOf entries := sizeOf_sortByCompare _ _
    _ < 1 + sizeOf entries := by omega

/-- The `for (index, entry) in visible_entries.iter().enumerate()` loop of
`print_tree_recursive`: renders each entry of the already sorted-and-filtered
sibling list, recursing into directories at depth `currentDepth + 1`. -/
def renderEntries (l : List FsEntry) (linePfx : String) (all : Bool)
    (currentDepth maxDepth : Nat) : List TreeLine :=
  match l with
  | [] => []
  | e :: rest =>
    let isLast := rest.isEmpty
    let connector := if isLast then "└── " else "├── "
    let nextPfx := if isLast then linePfx ++ "    " else linePfx ++ "│   "
    { depth := currentDepth, linePfx := linePfx, connector := connector,
      name := e.fileName.lossy,
      style := colorFor e.pathIsDir e.fileName.lossy } ::
      ((if e.pathIsDir then
          printTreeRecursive e.children nextPfx all (currentDepth + 1) maxDepth
        else []) ++ renderEntries rest linePfx all currentDepth maxDepth)
termination_by sizeOf l
decreasing_by
  all_goals
    (have h1 := sizeOf_children_lt e
     simp_wf
     try omega)

end

/-- Models `print_tree` (`main.rs` lines 295-305): the root name is printed
once, unprefixed, then the recursion starts at depth 0 with the hard-coded
maximum depth 3. `rootName` models the lossy `file_name()` of the path (or
the lossy path itself when it has no file name). -/
def printTree (rootName : String) (rootReadDir : Option (List FsEntry))
    (all : Bool) : String × List TreeLine :=
  (rootName, printTreeRecursive rootReadDir "" all 0 3)

/-- The observable outcome of one invocation of `main` (`main.rs` lines
72-97): either one of the two error messages, or the data handed to exactly
one of the four renderers (tree printer, JSON serializer, long table, short
table). -/
inductive MainOutput where
  | errorReadingDir
  | pathDoesNotExist
  | treeOutput (rootName : String) (lines : List TreeLine)
  | jsonOutput (files : List FileEntryLong)
  | longTable (files : List FileEntryLong)
  | shortTable (files : List FileEntryShort)
deriving DecidableEq

/-- The six possible kinds of `main` outcome, used to state mode selection. -/
inductive OutKind where
  | readErrK
  | noExistK
  | treeK
  | structuredK
  | detailedK
  | compactK
deriving DecidableEq

/-- The kind of a `main` outcome. -/
def MainOutput.kind : MainOutput → OutKind
  | .errorReadingDir => OutKind.readErrK
  | .pathDoesNotExist => OutKind.noExistK
  | .treeOutput _ _ => OutKind.treeK
  | .jsonOutput _ => OutKind.structuredK
  | .longTable _ => OutKind.detailedK
  | .shortTable _ => OutKind.compactK

/-- Models `main` (`main.rs` lines 72-97). `existsResult` models
`fs::exists(&path)` (`none` = `Err`). When the path exists, the mode is
chosen by the `if cli.tree / else if cli.json / else if cli.long / else`
chain; tree mode receives the root name and the depth-3 tree lines, the JSON
and long-table modes receive `get_long_files`, the short table receives
`get_short_files`. -/
def mainRun (existsResult : Option Bool) (rootName : String)
    (rootReadDir : Option (List FsEntry)) (users : Nat → Option String)
    (cli : Cli) : MainOutput :=
  match existsResult with
  | some true =>
    if cli.tree then
      MainOutput.treeOutput (printTree rootName rootReadDir cli.all).1
        (printTree rootName rootReadDir cli.all).2
    else if cli.json then
      MainOutput.jsonOutput (getLongFiles rootReadDir users cli)
    else if cli.long then
      MainOutput.longTable (getLongFiles rootReadDir users cli)
    else
      MainOutput.shortTable (getShortFiles rootReadDir cli)
  | some false => MainOutput.pathDoesNotExist
  | none => MainOutput.errorReadingDir

theorem listCompare_swap (xs ys : List Nat) :
    listCompare ys xs = (listCompare xs ys).swap := by
  induction xs generalizing ys with
  | nil => cases ys <;> simp [listCompare, Ordering.swap]
  | cons x xs ih =>
    cases ys with
    | nil => simp [listCompare, Ordering.swap]
    | cons y ys =>
      simp only [listCompare]
      by_cases h1 : x < y
      · have h2 : ¬ y < x := by omega
        simp [h1, h2, Ordering.swap]
      · by_cases h2 : y < x
        · simp [h1, h2, Ordering.swap]
        · simp [h1, h2, ih]

theorem listCompare_eq_iff (xs ys : List Nat) :
    listCompare xs ys = Ordering.eq ↔ xs = ys := by
  induction xs generalizing ys with
  | nil => cases ys <;> simp [listCompare]
  | cons x xs ih =>
    cases ys with
    | nil => simp [listCompare]
    | cons y ys =>
      simp only [listCompare]
      by_cases h1 : x < y
      · simp [h1]
        omega
      · by_cases h2 : y < x
        · simp [h1, h2]
          omega
        · have hxy : x = y := by omega
          simp [h1, h2, ih, hxy]

theorem listCompare_lt_trans {xs ys zs : List Nat}
    (h1 : listCompare xs ys = Ordering.lt)
    (h2 : listCompare ys zs = Ordering.lt) :
    listCompare xs zs = Ordering.lt := by
  induction xs generalizing ys zs with
  | nil =>
    cases ys with
    | nil => simp [listCompare] at h1
    | cons y ys =>
      cases zs with
      | nil => simp [listCompare] at h2
      | cons z zs => simp [listCompare]
  | cons x xs ih =>
    cases ys with
    | nil => simp [listCompare] at h1
    | cons y ys =>
      cases zs with
      | nil => simp [listCompare] at h2
      | cons z zs =>
        simp only [listCompare] at h1 h2 ⊢
        by_cases hxy : x < y
        · by_cases hyz : y < z
          · have : x < z := by omega
            simp [this]
          · by_cases hzy : z < y
            · simp [hxy, hyz, hzy] at h2
            · have : x < z := by omega
              simp [this]
        · by_cases hyx : y < x
          · simp [hxy, hyx] at h1
          · by_cases hyz : y < z
            · have : x < z := by omega
              simp [this]
            · by_cases hzy : z < y
              · simp [hyz, hzy] at h2
              · have hx : ¬ x < z := by omega
                have hz : ¬ z < x := by omega
                simp [hxy, hyx] at h1
                simp [hyz, hzy] at h2
                simp [hx, hz, ih h1 h2]

theorem listCompare_notGt_lt_trans {xs ys zs : List Nat}
    (h1 : listCompare xs ys ≠ Ordering.gt)
    (h2 : listCompare ys zs = Ordering.lt) :
    listCompare xs zs = Ordering.lt := by
  cases h : listCompare xs ys with
  | lt => exact listCompare_lt_trans h h2
  | eq => rw [(listCompare_eq_iff xs ys).1 h]; exact h2
  | gt => exact absurd h h1

theorem treeCompare_swap (a b : FsEntry) :
    treeCompare b a = (treeCompare a b).swap := by
  cases ha : a.pathIsDir <;> cases hb : b.pathIsDir <;>
    simp only [treeCompare, ha, hb] <;>
    first
    | rfl
    | exact listCompare_swap _ _

theorem treeCompare_notGt_lt_trans (a b c : FsEntry)
    (h1 : treeCompare a b ≠ Ordering.gt)
    (h2 : treeCompare b c = Ordering.lt) :
    treeCompare a c = Ordering.lt := by
  cases ha : a.pathIsDir <;> cases hb : b.pathIsDir <;> cases hc : c.pathIsDir <;>
    simp [treeCompare, ha, hb, hc] at h1 h2 ⊢ <;>
    exact listCompare_notGt_lt_trans h1 h2

/-- The non-strict relation induced by a comparator: `a` is not after `b`. -/
def cmpLe {α : Type} (cmp : α → α → Ordering) (a b : α) : Prop :=
  cmp a b ≠ Ordering.gt

theorem cmpLe_of_not_lt {α : Type} {cmp : α → α → Ordering}
    (hswap : ∀ a b, cmp b a = (cmp a b).swap) {x y : α}
    (h : cmp y x ≠ Ordering.lt) : cmpLe cmp x y := by
  intro hgt
  have := hswap x y
  rw [hgt] at this
  exact h this

theorem cmpLe_trans {α : Type} {cmp : α → α → Ordering}
    (hswap : ∀ a b, cmp b a = (cmp a b).swap)
    (hlelt : ∀ a b c, cmp a b ≠ Ordering.gt → cmp b c = Ordering.lt →
      cmp a c = Ordering.lt)
    {a b c : α} (h1 : cmpLe cmp a b) (h2 : cmpLe cmp b c) : cmpLe cmp a c := by
  intro hgt
  have hca : cmp c a = Ordering.lt := by
    rw [hswap a c, hgt]
    rfl
  have hba : cmp b a = Ordering.lt := hlelt b c a h2 hca
  have : cmp a b = Ordering.gt := by
    rw [hswap b a, hba]
    rfl
  exact h1 this

theorem mem_insertSorted {α : Type} {cmp : α → α → Ordering} {x z : α}
    {l : List α} : z ∈ insertSorted cmp x l ↔ z = x ∨ z ∈ l := by
  induction l with
  | nil => simp [insertSorted]
  | cons y ys ih =>
    simp only [insertSorted]
    split
    all_goals simp [ih, List.mem_cons]
    all_goals tauto

theorem pairwise_insertSorted {α : Type} {cmp : α → α → Ordering}
    (hswap : ∀ a b, cmp b a = (cmp a b).swap)
    (hlelt : ∀ a b c, cmp a b ≠ Ordering.gt → cmp b c = Ordering.lt →
      cmp a c = Ordering.lt)
    (x : α) {l : List α} (h : l.Pairwise (cmpLe cmp)) :
    (insertSorted cmp x l).Pairwise (cmpLe cmp) := by
  induction l with
  | nil => simp [insertSorted, List.pairwise_singleton]
  | cons y ys ih =>
    rcases List.pairwise_cons.1 h with ⟨hy, hys⟩
    simp only [insertSorted]
    split
    · rename_i hlt
      refine List.pairwise_cons.2 ⟨?_, ih hys⟩
      intro z hz
      rcases mem_insertSorted.1 hz with hzx | hzy
      · subst hzx
        intro hgt
        rw [hlt] at hgt
        exact absurd hgt (by simp)
      · exact hy z hzy
    · rename_i hnlt
      refine List.pairwise_cons.2 ⟨?_, h⟩
      intro z hz
      rcases List.mem_cons.1 hz with hzy | hzys
      · subst hzy
        exact cmpLe_of_not_lt hswap hnlt
      · exact cmpLe_trans hswap hlelt (cmpLe_of_not_lt hswap hnlt) (hy z hzys)

theorem pairwise_sortByCompare {α : Type} {cmp : α → α → Ordering}
    (hswap : ∀ a b, cmp b a = (cmp a b).swap)
    (hlelt : ∀ a b c, cmp a b ≠ Ordering.gt → cmp b c = Ordering.lt →
      cmp a c = Ordering.lt)
    (l : List α) : (sortByCompare cmp l).Pairwise (cmpLe cmp) := by
  induction l with
  | nil => simp [sortByCompare]
  | cons x xs ih => exact pairwise_insertSorted hswap hlelt x ih

theorem sortByCompare_eq_self {α : Type} {cmp : α → α → Ordering}
    (hswap : ∀ a b, cmp b a = (cmp a b).swap)
    {l : List α} (h : l.Pairwise (cmpLe cmp)) : sortByCompare cmp l = l := by
  induction l with
  | nil => rfl
  | cons x xs ih =>
    rcases List.pairwise_cons.1 h with ⟨hx, hxs⟩
    simp only [sortByCompare, ih hxs]
    cases xs with
    | nil => rfl
    | cons y ys =>
      have hxy : cmpLe cmp x y := hx y (by simp)
      have : cmp y x ≠ Ordering.lt := by
        intro hlt
        have := hswap y x
        rw [hlt] at this
        exact hxy this
      simp [insertSorted, this]

theorem mem_sortByCompare {α : Type} {cmp : α → α → Ordering} {x : α}
    {l : List α} : x ∈ sortByCompare cmp l ↔ x ∈ l := by
  induction l with
  | nil => simp [sortByCompare]
  | cons y ys ih => simp [sortByCompare, mem_insertSorted, ih]

theorem insertSorted_eq_cons {α : Type} {cmp : α → α → Ordering} {x : α}
    {l : List α} (h : ∀ z ∈ l, cmp z x ≠ Ordering.lt) :
    insertSorted cmp x l = x :: l := by
  cases l with
  | nil => rfl
  | cons y ys => simp [insertSorted, h y (by simp)]

theorem filter_insertSorted_neg {α : Type} {cmp : α → α → Ordering}
    (p : α → Bool) {x : α} (l : List α) (hx : p x = false) :
    (insertSorted cmp x l).filter p = l.filter p := by
  induction l with
  | nil => simp [insertSorted, hx]
  | cons y ys ih =>
    simp only [insertSorted]
    split
    · simp [List.filter_cons, ih]
    · simp [List.filter_cons, hx]

theorem filter_insertSorted_pos {α : Type} {cmp : α → α → Ordering}
    (hswap : ∀ a b, cmp b a = (cmp a b).swap)
    (hlelt : ∀ a b c, cmp a b ≠ Ordering.gt → cmp b c = Ordering.lt →
      cmp a c = Ordering.lt)
    (p : α → Bool) {x : α} {l : List α} (hx : p x = true)
    (h : l.Pairwise (cmpLe cmp)) :
    (insertSorted cmp x l).filter p = insertSorted cmp x (l.filter p) := by
  induction l with
  | nil => simp [insertSorted, hx]
  | cons y ys ih =>
    rcases List.pairwise_cons.1 h with ⟨hy, hys⟩
    simp only [insertSorted]
    split
    · rename_i hlt
      cases hpy : p y with
      | true =>
        have h1 : List.filter p (y :: insertSorted cmp x ys) =
            y :: List.filter p (insertSorted cmp x ys) := by
          simp [List.filter_cons, hpy]
        have h2 : List.filter p (y :: ys) = y :: List.filter p ys := by
          simp [List.filter_cons, hpy]
        rw [h1, ih hys, h2]
        simp [insertSorted, hlt]
      | false =>
        have h1 : List.filter p (y :: insertSorted cmp x ys) =
            List.filter p (insertSorted cmp x ys) := by
          simp [List.filter_cons, hpy]
        have h2 : List.filter p (y :: ys) = List.filter p ys := by
          simp [List.filter_cons, hpy]
        rw [h1, ih hys, h2]
    · rename_i hnlt
      have h0 : List.filter p (x :: y :: ys) = x :: List.filter p (y :: ys) := by
        simp [List.filter_cons, hx]
      rw [h0]
      cases hpy : p y with
      | true =>
        have h2 : List.filter p (y :: ys) = y :: List.filter p ys := by
          simp [List.filter_cons, hpy]
        rw [h2]
        simp [insertSorted, hnlt]
      | false =>
        have h2 : List.filter p (y :: ys) = List.filter p ys := by
          simp [List.filter_cons, hpy]
        rw [h2, insertSorted_eq_cons]
        intro z hz
        have hzys : z ∈ ys := (List.mem_filter.1 hz).1
        have hxy : cmpLe cmp x y := cmpLe_of_not_lt hswap hnlt
        have hxz : cmpLe cmp x z := cmpLe_trans hswap hlelt hxy (hy z hzys)
        intro hlt
        have := hswap z x
        rw [hlt] at this
        exact hxz this

theorem filter_sortByCompare {α : Type} {cmp : α → α → Ordering}
    (hswap : ∀ a b, cmp b a = (cmp a b).swap)
    (hlelt : ∀ a b c, cmp a b ≠ Ordering.gt → cmp b c = Ordering.lt →
      cmp a c = Ordering.lt)
    (p : α → Bool) (l : List α) :
    (sortByCompare cmp l).filter p = sortByCompare cmp (l.filter p) := by
  induction l with
  | nil => rfl
  | cons x xs ih =>
    simp only [sortByCompare, List.filter_cons]
    by_cases hx : p x = true
    · rw [if_pos hx,
        filter_insertSorted_pos hswap hlelt p hx
          (pairwise_sortByCompare hswap hlelt xs),
        ih, sortByCompare]
    · have hx' : p x = false := by
        cases hq : p x
        · rfl
        · exact absurd hq hx
      rw [if_neg (by simp [hx']), filter_insertSorted_neg p _ hx', ih]

/-- What `renderEntries` produces when no entry can be expanded (recursion cut
off by the depth bound): one line per entry, in order, with the last entry
using the terminal connector. -/
def renderLeaf (l : List FsEntry) (linePfx : String) (d : Nat) : List TreeLine :=
  match l with
  | [] => []
  | e :: rest =>
    let isLast := rest.isEmpty
    { depth := d, linePfx := linePfx,
      connector := if isLast then "└── " else "├── ",
      name := e.fileName.lossy,
      style := colorFor e.pathIsDir e.fileName.lossy } :: renderLeaf rest linePfx d

theorem renderEntries_at_last_depth (l : List FsEntry) (linePfx : String)
    (all : Bool) (d m : Nat) (h : d + 1 ≥ m) :
    renderEntries l linePfx all d m = renderLeaf l linePfx d := by
  induction l with
  | nil => simp [renderEntries, renderLeaf]
  | cons e rest ih =>
    rw [renderEntries, renderLeaf]
    have hcut : ∀ pfx2, printTreeRecursive e.children pfx2 all (d + 1) m = [] := by
      intro pfx2
      rw [printTreeRecursive.eq_def]
      simp [h]
    split <;> simp [hcut, ih]

theorem treeLines_depth_aux (n : Nat) :
    (∀ rd linePfx all d m, sizeOf rd ≤ n →
      ∀ line ∈ printTreeRecursive rd linePfx all d m,
        d ≤ line.depth ∧ line.depth < m) ∧
    (∀ l linePfx all d m, d < m → sizeOf l ≤ n →
      ∀ line ∈ renderEntries l linePfx all d m,
        d ≤ line.depth ∧ line.depth < m) := by
  induction n with
  | zero =>
    constructor
    · intro rd _ _ _ _ hsz
      cases rd <;> simp_arith at hsz
    · intro l _ _ _ _ _ hsz
      cases l <;> simp_arith at hsz
  | succ k ih =>
    constructor
    · intro rd linePfx all d m hsz line hline
      rw [printTreeRecursive.eq_def] at hline
      by_cases hd : d ≥ m
      · simp [hd] at hline
      · simp only [hd, if_neg, ite_false] at hline
        cases rd with
        | none => simp at hline
        | some entries =>
          simp only at hline
          have hsz2 : sizeOf (visibleFilter all (sortByCompare treeCompare entries)) ≤ k := by
            have h1 := sizeOf_filter_le
              (fun e => all || !startsWithDot e.fileName.lossy)
              (sortByCompare treeCompare entries)
            have h2 := sizeOf_sortByCompare treeCompare entries
            have h3 : sizeOf (some entries) = 1 + sizeOf entries := by simp_arith
            rw [h3] at hsz
            simp only [visibleFilter]
            omega
          exact ih.2 _ linePfx all d m (by omega) hsz2 line hline
    · intro l linePfx all d m hd hsz line hline
      cases l with
      | nil => simp [renderEntries] at hline
      | cons e rest =>
        rw [renderEntries] at hline
        simp only [List.mem_cons, List.mem_append] at hline
        rcases hline with hline | hline | hline
        · subst hline
          exact ⟨Nat.le_refl d, hd⟩
        · by_cases hdir : e.pathIsDir = true
          · rw [if_pos hdir] at hline
            have hsz2 : sizeOf e.children ≤ k := by
              have h1 := sizeOf_children_lt e
              simp_arith at hsz
              omega
            have := (ih.1 e.children _ all (d + 1) m hsz2 line hline)
            omega
          · simp [hdir] at hline
        · have hsz2 : sizeOf rest ≤ k := by
            simp_arith at hsz
            omega
          exact ih.2 rest linePfx all d m hd hsz2 line hline

theorem treeLines_hidden_aux (n : Nat) :
    (∀ rd linePfx d m, sizeOf rd ≤ n →
      ∀ line ∈ printTreeRecursive rd linePfx false d m,
        startsWithDot line.name = false) ∧
    (∀ l linePfx d m, (∀ e ∈ l, startsWithDot e.fileName.lossy = false) →
      sizeOf l ≤ n →
      ∀ line ∈ renderEntries l linePfx false d m,
        startsWithDot line.name = false) := by
  induction n with
  | zero =>
    constructor
    · intro rd _ _ _ hsz
      cases rd <;> simp_arith at hsz
    · intro l _ _ _ _ hsz
      cases l <;> simp_arith at hsz
  | succ k ih =>
    constructor
    · intro rd linePfx d m hsz line hline
      rw [printTreeRecursive.eq_def] at hline
      by_cases hd : d ≥ m
      · simp [hd] at hline
      · simp only [hd, if_neg, ite_false] at hline
        cases rd with
        | none => simp at hline
        | some entries =>
          simp only at hline
          have hvis : ∀ e ∈ visibleFilter false (sortByCompare treeCompare entries),
              startsWithDot e.fileName.lossy = false := by
            intro e he
            have := (List.mem_filter.1 he).2
            simpa using this
          have hsz2 : sizeOf (visibleFilter false (sortByCompare treeCompare entries)) ≤ k := by
            have h1 := sizeOf_filter_le
              (fun e => false || !startsWithDot e.fileName.lossy)
              (sortByCompare treeCompare entries)
            have h2 := sizeOf_sortByCompare treeCompare entries
            have h3 : sizeOf (some entries) = 1 + sizeOf entries := by simp_arith
            rw [h3] at hsz
            simp only [visibleFilter]
            omega
          exact ih.2 _ linePfx d m hvis hsz2 line hline
    · intro l linePfx d m hvis hsz line hline
      cases l with
      | nil => simp [renderEntries] at hline
      | cons e rest =>
        rw [renderEntries] at hline
        simp only [List.mem_cons, List.mem_append] at hline
        rcases hline with hline | hline | hline
        · subst hline
          exact hvis e (by simp)
        · by_cases hdir : e.pathIsDir = true
          · rw [if_pos hdir] at hline
            have hsz2 : sizeOf e.children ≤ k := by
              have h1 := sizeOf_children_lt e
              simp_arith at hsz
              omega
            exact ih.1 e.children _ (d + 1) m hsz2 line hline
          · simp [hdir] at hline
        · have hsz2 : sizeOf rest ≤ k := by
            simp_arith at hsz
            omega
          exact ih.2 rest linePfx d m (fun x hx => hvis x (by simp [hx])) hsz2
            line hline

theorem renderEntries_names_sublist (l : List FsEntry) (linePfx : String)
    (all : Bool) (d m : Nat) :
    List.Sublist (l.map fun e => e.fileName.lossy)
      ((renderEntries l linePfx all d m).map TreeLine.name) := by
  induction l with
  | nil => simp [renderEntries]
  | cons e rest ih =>
    rw [renderEntries]
    simp only [List.map_cons, List.map_append]
    refine List.Sublist.cons₂ _ ?_
    exact ih.trans (List.sublist_append_right _ _)

theorem visibleFilter_true (es : List FsEntry) : visibleFilter true es = es := by
  simp [visibleFilter]

theorem visibleFilter_false (es : List FsEntry) :
    visibleFilter false es = es.filter fun e => !startsWithDot e.fileName.lossy := by
  simp [visibleFilter]

theorem hidden_visible_partition (es : List FsEntry) :
    (hiddenOf es ++ visibleFilter false es).Perm es := by
  rw [visibleFilter_false]
  exact List.filter_append_perm _ es

theorem mem_visibleFilter_false (es : List FsEntry) (e : FsEntry)
    (h : e ∈ visibleFilter false es) : startsWithDot e.fileName.lossy = false := by
  rw [visibleFilter_false] at h
  simpa using (List.mem_filter.1 h).2

theorem filterMap_guard {α β : Type} (p : α → Bool) (f : α → Option β)
    (l : List α) :
    (l.filterMap fun x => if p x then none else f x) =
      (l.filter fun x => !p x).filterMap f := by
  induction l with
  | nil => rfl
  | cons x xs ih =>
    rw [List.filterMap_cons, List.filter_cons]
    cases hp : p x
    · simp only [Bool.not_false, if_true, Bool.false_eq_true, if_false]
      cases hf : f x <;> simp [hf, List.filterMap_cons, ih]
    · simp [ih]

theorem getShortFiles_eq_filter (es : List FsEntry) (cli : Cli) :
    getShortFiles (some es) cli = (visibleFilter cli.all es).filterMap mapShortData := by
  simp only [getShortFiles]
  rw [filterMap_guard (fun e => !cli.all && startsWithDot e.fileName.lossy)
    mapShortData es]
  congr 1
  simp only [visibleFilter]
  apply List.filter_congr
  intro x _
  cases cli.all <;> cases startsWithDot x.fileName.lossy <;> rfl

theorem getLongFiles_eq_filter (es : List FsEntry) (users : Nat → Option String)
    (cli : Cli) :
    getLongFiles (some es) users cli =
      (visibleFilter cli.all es).filterMap (mapLongData users) := by
  simp only [getLongFiles]
  rw [filterMap_guard (fun e => !cli.all && startsWithDot e.fileName.lossy)
    (mapLongData users) es]
  congr 1
  simp only [visibleFilter]
  apply List.filter_congr
  intro x _
  cases cli.all <;> cases startsWithDot x.fileName.lossy <;> rfl

theorem mapShortData_isSome (e : FsEntry) :
    (mapShortData e).isSome = e.metaResult.isSome := by
  cases h : e.metaResult <;> simp [mapShortData, h]

theorem mapLongData_isSome (users : Nat → Option String) (e : FsEntry) :
    (mapLongData users e).isSome = e.metaResult.isSome := by
  cases h : e.metaResult <;> simp [mapLongData, h]

theorem length_filterMap_isSome {α β : Type} (f : α → Option β) (l : List α) :
    (l.filterMap f).length = (l.filter fun x => (f x).isSome).length := by
  induction l with
  | nil => rfl
  | cons x xs ih =>
    rw [List.filterMap_cons, List.filter_cons]
    cases h : f x <;> simp [h, ih]

/-- Fixture: the valid one-byte name "a". -/
def nameA : OsString := { bytes := [97], intoStringResult := some "a", lossy := "a" }

/-- Fixture: the valid name "good". -/
def nameGood : OsString :=
  { bytes := [103, 111, 111, 100], intoStringResult := some "good", lossy := "good" }

/-- Fixture: the valid name "b". -/
def nameB : OsString := { bytes := [98], intoStringResult := some "b", lossy := "b" }

/-- Fixture: the hidden name ".h". -/
def nameDotH : OsString :=
  { bytes := [46, 104], intoStringResult := some ".h", lossy := ".h" }

/-- Fixture: the valid directory name "d". -/
def nameDirD : OsString := { bytes := [100], intoStringResult := some "d", lossy := "d" }

/-- Fixture: a non-UTF-8 name (bytes b, 0xFF, d): `into_string` fails and the
lossy conversion replaces the invalid byte with U+FFFD. -/
def nameBad : OsString :=
  { bytes := [98, 255, 100], intoStringResult := none, lossy := "b�d" }

/-- Fixture: metadata of a plain 5-byte file with mode 0644, uid 0 and an
unavailable modified timestamp. -/
def metaPlain : Metadata :=
  { isDir := false, len := 5, uid := 0, mode := 420, modified := none }

/-- Fixture: metadata of a directory with mode 0755. -/
def metaDir : Metadata :=
  { isDir := true, len := 0, uid := 0, mode := 493, modified := none }

/-- Fixture: the file "a" with readable metadata. -/
def entryA : FsEntry := .mk nameA (some metaPlain) false none

/-- Fixture: the file "good" with readable metadata. -/
def entryGood : FsEntry := .mk nameGood (some metaPlain) false none

/-- Fixture: the file "b" whose metadata read fails. -/
def entryBNoMeta : FsEntry := .mk nameB none false none

/-- Fixture: the hidden file ".h" with readable metadata. -/
def entryDotH : FsEntry := .mk nameDotH (some metaPlain) false none

/-- Fixture: the hidden file ".h" whose metadata read fails. -/
def entryDotHNoMeta : FsEntry := .mk nameDotH none false none

/-- Fixture: the non-UTF-8-named file with readable metadata. -/
def entryBad : FsEntry := .mk nameBad (some metaPlain) false none

/-- Fixture: the non-UTF-8-named file whose metadata read fails. -/
def entryBadNoMeta : FsEntry := .mk nameBad none false none

/-- Fixture: the directory "d" containing the file "a". -/
def entryDirD : FsEntry := .mk nameDirD (some metaDir) true (some [entryA])

/-- Fixture: a users database that resolves no uid. -/
def usersEmpty : Nat → Option String := fun _ => none

/-- Fixture: the default configuration (no flags). -/
def cliDefault : Cli := { json := false, all := false, long := false, tree := false }

/-- Fixture: configuration with only `--all` set. -/
def cliAll : Cli := { json := false, all := true, long := false, tree := false }

/-- Fixture: configuration with only `--json` set. -/
def cliJson : Cli := { json := true, all := false, long := false, tree := false }

/-- Fixture: configuration with only `--long` set. -/
def cliLong : Cli := { json := false, all := false, long := true, tree := false }

/-- C2: the tree-mode sibling comparator is a strict total order on the
distinct entries of one directory: a directory sorts before a non-directory;
entries of the same kind are ordered by byte-wise comparison of their names;
the comparator is antisymmetric (swap duality) and transitive, and it never
reports equality for entries with distinct names; sorting an already sorted
list again changes nothing (the sort is idempotent). -/
theorem tree_comparator_strict_total_order :
    (∀ a b : FsEntry, a.pathIsDir = true → b.pathIsDir = false →
      treeCompare a b = Ordering.lt) ∧
    (∀ a b : FsEntry, a.pathIsDir = b.pathIsDir →
      treeCompare a b = listCompare a.fileName.bytes b.fileName.bytes) ∧
    (∀ a b : FsEntry, treeCompare b a = (treeCompare a b).swap) ∧
    (∀ a b : FsEntry, a.fileName.bytes ≠ b.fileName.bytes →
      treeCompare a b = Ordering.lt ∨ treeCompare a b = Ordering.gt) ∧
    (∀ a b c : FsEntry, treeCompare a b = Ordering.lt →
      treeCompare b c = Ordering.lt → treeCompare a c = Ordering.lt) ∧
    (∀ l : List FsEntry,
      sortByCompare treeCompare (sortByCompare treeCompare l) =
        sortByCompare treeCompare l) := by
  refine ⟨?_, ?_, treeCompare_swap, ?_, ?_, ?_⟩
  · intro a b ha hb
    simp [treeCompare, ha, hb]
  · intro a b h
    cases ha : a.pathIsDir <;> rw [ha] at h <;> simp [treeCompare, ha, h.symm]
  · intro a b h
    have hne : listCompare a.fileName.bytes b.fileName.bytes ≠ Ordering.eq := by
      intro he
      exact h ((listCompare_eq_iff _ _).1 he)
    cases ha : a.pathIsDir <;> cases hb : b.pathIsDir <;>
      simp only [treeCompare, ha, hb]
    · cases hc : listCompare a.fileName.bytes b.fileName.bytes
      · exact Or.inl rfl
      · exact absurd hc hne
      · exact Or.inr rfl
    · exact Or.inr trivial
    · exact Or.inl trivial
    · cases hc : listCompare a.fileName.bytes b.fileName.bytes
      · exact Or.inl rfl
      · exact absurd hc hne
      · exact Or.inr rfl
  · intro a b c h1 h2
    exact treeCompare_notGt_lt_trans a b c (by simp [h1]) h2
  · intro l
    exact sortByCompare_eq_self treeCompare_swap
      (pairwise_sortByCompare treeCompare_swap treeCompare_notGt_lt_trans l)

/-- Witness for C2 at concrete entries: the directory "d" sorts before the
file "a", and the comparator separates the distinct names "a" and "good". -/
theorem tree_comparator_strict_total_order_witness :
    treeCompare entryDirD entryA = Ordering.lt ∧
    (treeCompare entryA entryGood = Ordering.lt ∨
      treeCompare entryA entryGood = Ordering.gt) :=
  ⟨tree_comparator_strict_total_order.1 entryDirD entryA rfl rfl,
    tree_comparator_strict_total_order.2.2.2.1 entryA entryGood (by decide)⟩

/-- C3: no tree line is ever emitted for a node at depth ≥ the configured
maximum (depth 0 being the root's direct children), and when the recursion
runs at depth exactly maximum − 1 every visible entry — directories included
— is still listed, as a plain leaf line with no expansion of its children. -/
theorem tree_depth_bound (rd : Option (List FsEntry)) (linePfx : String)
    (all : Bool) (d m : Nat) :
    (∀ line ∈ printTreeRecursive rd linePfx all d m,
      d ≤ line.depth ∧ line.depth < m) ∧
    (∀ es, rd = some es → d + 1 = m →
      printTreeRecursive rd linePfx all d m =
        renderLeaf (visibleFilter all (sortByCompare treeCompare es)) linePfx d) := by
  constructor
  · exact (treeLines_depth_aux (sizeOf rd)).1 rd linePfx all d m (Nat.le_refl _)
  · intro es h1 h2
    subst h1
    rw [printTreeRecursive.eq_def]
    have hd : ¬ d ≥ m := by omega
    simp only [hd, if_neg, ite_false]
    exact renderEntries_at_last_depth _ linePfx all d m (by omega)

/-- Witness for C3: with maximum depth 1, the directory "d" at depth 0 is
listed but not expanded. -/
theorem tree_depth_bound_witness :
    (0 : Nat) + 1 = 1 ∧
    printTreeRecursive (some [entryDirD]) "" true 0 1 =
      renderLeaf (visibleFilter true (sortByCompare treeCompare [entryDirD])) "" 0 :=
  ⟨rfl, (tree_depth_bound (some [entryDirD]) "" true 0 1).2 [entryDirD] rfl rfl⟩

/-- C4: when the root path exists, exactly one of the four output modes runs,
selected by precedence: tree if the tree flag is set (regardless of the other
flags), else structured if the json flag is set, else detailed if the long
flag is set, else compact. -/
theorem mode_selection_precedence (ex : Option Bool) (rootName : String)
    (rd : Option (List FsEntry)) (users : Nat → Option String) (cli : Cli)
    (h : ex = some true) :
    ((mainRun ex rootName rd users cli).kind = OutKind.treeK ↔ cli.tree = true) ∧
    ((mainRun ex rootName rd users cli).kind = OutKind.structuredK ↔
      cli.tree = false ∧ cli.json = true) ∧
    ((mainRun ex rootName rd users cli).kind = OutKind.detailedK ↔
      cli.tree = false ∧ cli.json = false ∧ cli.long = true) ∧
    ((mainRun ex rootName rd users cli).kind = OutKind.compactK ↔
      cli.tree = false ∧ cli.json = false ∧ cli.long = false) := by
  subst h
  rcases cli with ⟨j, a, l, t⟩
  cases t <;> cases j <;> cases l <;>
    simp [mainRun, MainOutput.kind]

/-- Witness for C4 at the default configuration: with no flags set, the
outcome is the compact table. -/
theorem mode_selection_precedence_witness :
    (mainRun (some true) "" none usersEmpty cliDefault).kind = OutKind.compactK ↔
      cliDefault.tree = false ∧ cliDefault.json = false ∧ cliDefault.long = false :=
  (mode_selection_precedence (some true) "" none usersEmpty cliDefault rfl).2.2.2

/-- C8: when the existence check reports that the root path does not exist,
the outcome is exactly the single non-existence message — no tree, table or
structured data is produced, and no listing function's output appears. -/
theorem nonexistent_path_message (ex : Option Bool) (rootName : String)
    (rd : Option (List FsEntry)) (users : Nat → Option String) (cli : Cli)
    (h : ex = some false) :
    mainRun ex rootName rd users cli = MainOutput.pathDoesNotExist ∧
    (mainRun ex rootName rd users cli).kind = OutKind.noExistK := by
  subst h
  exact ⟨rfl, rfl⟩

/-- Witness for C8 at a concrete configuration. -/
theorem nonexistent_path_message_witness :
    mainRun (some false) "x" (some [entryA]) usersEmpty cliLong =
      MainOutput.pathDoesNotExist :=
  (nonexistent_path_message (some false) "x" (some [entryA]) usersEmpty cliLong
    rfl).1

/-- C10: filtering hidden entries commutes with the tree sort — sorting then
removing hidden entries gives the same sequence as removing hidden entries
then sorting — so the tree builder's sort-before-filter pipeline produces
exactly the visible siblings, in the order of the filter-before-sort
description. -/
theorem sort_filter_commute (all : Bool) (es entries : List FsEntry)
    (linePfx : String) (d m : Nat) (h : d < m) :
    visibleFilter all (sortByCompare treeCompare es) =
      sortByCompare treeCompare (visibleFilter all es) ∧
    printTreeRecursive (some entries) linePfx all d m =
      renderEntries (sortByCompare treeCompare (visibleFilter all entries))
        linePfx all d m := by
  have hcomm : ∀ l : List FsEntry,
      visibleFilter all (sortByCompare treeCompare l) =
        sortByCompare treeCompare (visibleFilter all l) := by
    intro l
    simp only [visibleFilter]
    exact filter_sortByCompare treeCompare_swap treeCompare_notGt_lt_trans _ l
  constructor
  · exact hcomm es
  · rw [printTreeRecursive.eq_def]
    have hd : ¬ d ≥ m := by omega
    simp only [hd, if_neg, ite_false]
    rw [hcomm entries]

/-- Witness for C10 at a concrete sibling list containing a hidden entry, a
file and a directory. -/
theorem sort_filter_commute_witness :
    (0 : Nat) < 3 ∧
    printTreeRecursive (some [entryA, entryDotH, entryDirD]) "" false 0 3 =
      renderEntries
        (sortByCompare treeCompare (visibleFilter false [entryA, entryDotH, entryDirD]))
        "" false 0 3 :=
  ⟨by omega,
    (sort_filter_commute false [] [entryA, entryDotH, entryDirD] "" 0 3
      (by omega)).2⟩

/-- C1 (counterexample to the claim as stated): with `--all` set, a hidden
entry whose metadata read fails is nonetheless absent from the compact and
detailed listings, so "when show_hidden is true every such entry is included"
fails for the flat modes. -/
theorem hidden_filter_partition_counterexample :
    cliAll.all = true ∧
    startsWithDot entryDotHNoMeta.fileName.lossy = true ∧
    getShortFiles (some [entryDotHNoMeta]) cliAll = [] ∧
    getLongFiles (some [entryDotHNoMeta]) usersEmpty cliAll = [] :=
  ⟨rfl, rfl, rfl, rfl⟩

/-- C1 (amended): in every mode, when show_hidden is false every entry whose
lossy name starts with '.' is excluded (and hidden plus visible entries
partition the child set exactly); when show_hidden is true the tree keeps
every entry and lists every entry's name, while the flat modes list exactly
the entries whose metadata read succeeds (the flat listings being the
hidden-filtered child list fed through the per-entry row makers). -/
theorem hidden_filter_partition (es : List FsEntry)
    (users : Nat → Option String) (cli : Cli) (rd : Option (List FsEntry))
    (linePfx : String) (d m : Nat) :
    getShortFiles (some es) cli = (visibleFilter cli.all es).filterMap mapShortData ∧
    getLongFiles (some es) users cli =
      (visibleFilter cli.all es).filterMap (mapLongData users) ∧
    (∀ e ∈ visibleFilter false es, startsWithDot e.fileName.lossy = false) ∧
    (hiddenOf es ++ visibleFilter false es).Perm es ∧
    (∀ line ∈ printTreeRecursive rd linePfx false d m,
      startsWithDot line.name = false) ∧
    visibleFilter true es = es ∧
    (cli.all = true → (getShortFiles (some es) cli).length =
      (es.filter fun e => e.metaResult.isSome).length) ∧
    (d < m → ∀ e ∈ es, e.fileName.lossy ∈
      (printTreeRecursive (some es) linePfx true d m).map TreeLine.name) := by
  refine ⟨getShortFiles_eq_filter es cli, getLongFiles_eq_filter es users cli,
    mem_visibleFilter_false es, hidden_visible_partition es,
    (treeLines_hidden_aux (sizeOf rd)).1 rd linePfx d m (Nat.le_refl _),
    visibleFilter_true es, ?_, ?_⟩
  · intro hall
    rw [getShortFiles_eq_filter, hall, visibleFilter_true,
      length_filterMap_isSome]
    congr 1
    apply List.filter_congr
    intro x _
    rw [mapShortData_isSome]
  · intro hdm e he
    rw [printTreeRecursive.eq_def]
    have hd : ¬ d ≥ m := by omega
    simp only [hd, if_neg, ite_false, visibleFilter_true]
    have hmem : e ∈ sortByCompare treeCompare es := mem_sortByCompare.2 he
    have hname : e.fileName.lossy ∈
        (sortByCompare treeCompare es).map fun x => x.fileName.lossy :=
      List.mem_map.2 ⟨e, hmem, rfl⟩
    exact (renderEntries_names_sublist _ linePfx true d m).subset hname

/-- Witness for C1 (amended) at a concrete directory: with `--all`, the
compact listing has exactly one row (only the entry with readable metadata),
and the tree at depth bound 3 lists the name "a". -/
theorem hidden_filter_partition_witness :
    cliAll.all = true ∧
    (getShortFiles (some [entryDotH, entryBNoMeta]) cliAll).length =
      ([entryDotH, entryBNoMeta].filter fun e => e.metaResult.isSome).length ∧
    (0 : Nat) < 3 ∧
    entryA.fileName.lossy ∈
      (printTreeRecursive (some [entryA]) "" true 0 3).map TreeLine.name :=
  ⟨rfl,
    (hidden_filter_partition [entryDotH, entryBNoMeta] usersEmpty cliAll none
      "" 0 3).2.2.2.2.2.2.1 rfl,
    by omega,
    (hidden_filter_partition [entryA] usersEmpty cliAll none "" 0 3).2.2.2.2.2.2.2
      (by omega) entryA (by simp)⟩

/-- C5 (counterexample to the claim as stated): an entry whose metadata read
fails is dropped from the detailed and compact listings — no best-effort row
with zero size appears — while the neighbouring readable entry is still
listed. -/
theorem metadata_failure_counterexample :
    entryBNoMeta.metaResult = none ∧
    startsWithDot entryBNoMeta.fileName.lossy = false ∧
    getLongFiles (some [entryBNoMeta, entryGood]) usersEmpty cliDefault =
      [{ permissions := "644", owner := "0", name := "good",
         eType := EntryType.File, lenBytes := 5, modified := "" }] ∧
    getShortFiles (some [entryBNoMeta, entryGood]) cliDefault =
      [{ name := "good", eType := EntryType.File, lenBytes := 5,
         modified := "" }] :=
  ⟨rfl, rfl, rfl, rfl⟩

/-- C5 (amended): a child whose metadata read fails contributes no row to the
flat listings — removing it changes nothing — but the failure never aborts
the listing: the rows are exactly one per visible entry whose metadata read
succeeds. -/
theorem metadata_failure_dropped (es1 es2 : List FsEntry) (e : FsEntry)
    (users : Nat → Option String) (cli : Cli) (h : e.metaResult = none) :
    getShortFiles (some (es1 ++ e :: es2)) cli =
      getShortFiles (some (es1 ++ es2)) cli ∧
    getLongFiles (some (es1 ++ e :: es2)) users cli =
      getLongFiles (some (es1 ++ es2)) users cli ∧
    (∀ es, (getShortFiles (some es) cli).length =
      ((visibleFilter cli.all es).filter fun x => x.metaResult.isSome).length) ∧
    (∀ es, (getLongFiles (some es) users cli).length =
      ((visibleFilter cli.all es).filter fun x => x.metaResult.isSome).length) := by
  refine ⟨?_, ?_, ?_, ?_⟩
  · simp only [getShortFiles, List.filterMap_append, List.filterMap_cons]
    cases hs : (!cli.all && startsWithDot e.fileName.lossy) <;>
      simp [mapShortData, h]
  · simp only [getLongFiles, List.filterMap_append, List.filterMap_cons]
    cases hs : (!cli.all && startsWithDot e.fileName.lossy) <;>
      simp [mapLongData, h]
  · intro es
    rw [getShortFiles_eq_filter, length_filterMap_isSome]
    congr 1
    apply List.filter_congr
    intro x _
    rw [mapShortData_isSome]
  · intro es
    rw [getLongFiles_eq_filter, length_filterMap_isSome]
    congr 1
    apply List.filter_congr
    intro x _
    rw [mapLongData_isSome]

/-- Witness for C5 (amended) at a concrete directory. -/
theorem metadata_failure_dropped_witness :
    entryBNoMeta.metaResult = none ∧
    getShortFiles (some ([entryGood] ++ entryBNoMeta :: [entryA])) cliDefault =
      getShortFiles (some ([entryGood] ++ [entryA])) cliDefault :=
  ⟨rfl,
    (metadata_failure_dropped [entryGood] [entryA] entryBNoMeta usersEmpty
      cliDefault rfl).1⟩

/-- C6 (counterexample to the claim as stated): for an entry whose modified
timestamp is unavailable, the produced row carries the empty string — the
`String::default()` — in its always-present `modified` field, so the core
does substitute an empty-string default instead of an absent field. -/
theorem modified_absent_counterexample :
    metaPlain.modified = none ∧
    (mapShortData entryA).map FileEntryShort.modified = some "" ∧
    (mapLongData usersEmpty entryA).map FileEntryLong.modified = some "" :=
  ⟨rfl, rfl, rfl⟩

/-- C6 (amended): when the modified timestamp is unavailable, the row is
still produced and its `modified` string field is set to the empty string
(the `String` default) in both the compact and the detailed/structured row
shapes. -/
theorem modified_empty_string_default (e : FsEntry) (meta : Metadata)
    (users : Nat → Option String) (h1 : e.metaResult = some meta)
    (h2 : meta.modified = none) :
    (mapShortData e).map FileEntryShort.modified = some "" ∧
    (mapLongData users e).map FileEntryLong.modified = some "" := by
  constructor <;> simp [mapShortData, mapLongData, h1, h2]

/-- Witness for C6 (amended) at a concrete entry. -/
theorem modified_empty_string_default_witness :
    entryA.metaResult = some metaPlain ∧ metaPlain.modified = none ∧
    (mapShortData entryA).map FileEntryShort.modified = some "" :=
  ⟨rfl, rfl,
    (modified_empty_string_default entryA metaPlain usersEmpty rfl rfl).1⟩

/-- C7 (counterexample to the claim as stated): tree mode does not substitute
the fixed placeholder for a non-representable name — it renders the lossy
conversion (U+FFFD replacement) — and a non-representable-named entry whose
metadata read also fails is dropped from the flat listing rather than
listed. -/
theorem placeholder_name_counterexample :
    entryBad.fileName.intoStringResult = none ∧
    (renderEntries [entryBad] "" true 0 3).map TreeLine.name = ["b�d"] ∧
    ("b�d" : String) ≠ "unknown name" ∧
    getShortFiles (some [entryBadNoMeta]) cliAll = [] := by
  refine ⟨rfl, ?_, by decide, rfl⟩
  rw [renderEntries, renderEntries]
  simp [entryBad, nameBad, FsEntry.pathIsDir, FsEntry.fileName]

/-- C7 (amended): for a child whose name is not representable as UTF-8, the
flat modes substitute the fixed placeholder "unknown name" and still list the
entry provided its metadata read succeeds, while tree mode still lists the
entry but renders its lossy-converted name (replacement characters), not a
fixed placeholder. -/
theorem placeholder_name_substitution (e : FsEntry) (meta : Metadata)
    (users : Nat → Option String) (rest : List FsEntry) (linePfx : String)
    (all : Bool) (d m : Nat) (h1 : e.fileName.intoStringResult = none)
    (h2 : e.metaResult = some meta) :
    (mapShortData e).map FileEntryShort.name = some "unknown name" ∧
    (mapLongData users e).map FileEntryLong.name = some "unknown name" ∧
    ∃ tl, renderEntries (e :: rest) linePfx all d m =
      { depth := d, linePfx := linePfx,
        connector := if rest.isEmpty then "└── " else "├── ",
        name := e.fileName.lossy,
        style := colorFor e.pathIsDir e.fileName.lossy } :: tl := by
  refine ⟨?_, ?_, ?_⟩
  · simp [mapShortData, h1, h2]
  · simp [mapLongData, h1, h2]
  · rw [renderEntries]
    exact ⟨_, rfl⟩

/-- Witness for C7 (amended) at the concrete non-UTF-8-named entry. -/
theorem placeholder_name_substitution_witness :
    entryBad.fileName.intoStringResult = none ∧
    entryBad.metaResult = some metaPlain ∧
    (mapShortData entryBad).map FileEntryShort.name = some "unknown name" :=
  ⟨rfl, rfl,
    (placeholder_name_substitution entryBad metaPlain usersEmpty [] "" true 0 3
      rfl rfl).1⟩

/-- C9: structured mode and detailed mode consume the same classified-entry
sequence — both receive exactly `get_long_files`, so the same rows with the
same fields in the same enumeration order (a hidden-filtered `filterMap` of
the child list, with no tree sort applied) — and differ only in the renderer
the output is dispatched to. -/
theorem structured_detailed_same_sequence (rd : Option (List FsEntry))
    (users : Nat → Option String) (rootName : String) (c1 c2 : Cli)
    (h1t : c1.tree = false) (h1j : c1.json = true) (h2t : c2.tree = false)
    (h2j : c2.json = false) (h2l : c2.long = true) (hall : c1.all = c2.all) :
    mainRun (some true) rootName rd users c1 =
      MainOutput.jsonOutput (getLongFiles rd users c1) ∧
    mainRun (some true) rootName rd users c2 =
      MainOutput.longTable (getLongFiles rd users c2) ∧
    getLongFiles rd users c1 = getLongFiles rd users c2 ∧
    (∀ es, rd = some es → getLongFiles rd users c1 =
      (visibleFilter c1.all es).filterMap (mapLongData users)) := by
  refine ⟨by simp [mainRun, h1t, h1j], by simp [mainRun, h2t, h2j, h2l], ?_, ?_⟩
  · cases rd with
    | none => rfl
    | some es =>
      rw [getLongFiles_eq_filter, getLongFiles_eq_filter, hall]
  · intro es h
    subst h
    exact getLongFiles_eq_filter es users c1

/-- Witness for C9 at a concrete directory and the two concrete
configurations `--json` and `--long`. -/
theorem structured_detailed_same_sequence_witness :
    getLongFiles (some [entryA, entryDotH]) usersEmpty cliJson =
      getLongFiles (some [entryA, entryDotH]) usersEmpty cliLong :=
  (structured_detailed_same_sequence (some [entryA, entryDotH]) usersEmpty ""
    cliJson cliLong rfl rfl rfl rfl rfl rfl).2.2.1

end BetterLs
